import Mathlib

/-!
Verification development for the `pycmdc` file discovery and selection engine
(`src/cmdc/file_browser.py`, `src/cmdc/utils.py`, `src/cmdc/cli.py`,
`src/cmdc/config_manager.py`).

The Python code is shallowly embedded:

* `fnmatch.fnmatch` is embedded as an executable glob matcher (`fnmatch`)
  following `fnmatch.translate`: `*`, `?`, `[...]` classes with ranges and
  `!` negation, unterminated `[` taken literally, full-string match.
* the filesystem is a rose tree (`FSNode`); absolute paths are their list of
  segments (`Path.absolute().parts`), so `FileBrowser.should_ignore` is a
  predicate on segment lists.
* `os.walk`-based traversal, `limited_walk` and the non-recursive listing are
  recursive functions over `FSNode`; separate trace functions record which
  directories are listed (scandir'd / iterdir'd) and which nodes are visited,
  to reason about pruning.
* Python's stable `sorted` is embedded as a stable insertion sort
  (`stableSort`), extensionally equal to any stable sort by the same key;
  Python string comparison and `str.lower` act on the character lists.
* `build_directory_tree` builds a `RTree`; its recursion over parent paths is
  bounded by an explicit fuel that provably exceeds the recursion depth.
* `scan_and_select_files` is a function of the browser configuration, a file
  content oracle (`none` = read/decode failure) and the interactive chooser's
  returned list; `typer.Exit(1)` / `typer.Exit(0)` become outcome
  constructors.
-/

namespace PyCmdc

/-! ## Glob matching (`fnmatch.fnmatch`, as used by `should_ignore`) -/

/-- Scan a character list up to the next `]`, returning the consumed part and
the remainder after the `]` (after-the-fact of `fnmatch.translate`'s scan for
the end of a `[...]` class). -/
def scanUntilRBrack : List Char → Option (List Char × List Char)
  | [] => none
  | ']' :: rest => some ([], rest)
  | c :: rest =>
    match scanUntilRBrack rest with
    | none => none
    | some (s, r) => some (c :: s, r)

/-- Delimit a `[...]` class body starting just after the `[`, with
`fnmatch.translate`'s skip rules: a leading `!` and a leading `]` (after the
optional `!`) are part of the class body. `none` means the class is
unterminated and the `[` is literal. -/
def spanClass (l : List Char) : Option (List Char × List Char) :=
  match l with
  | '!' :: ']' :: rest =>
    match scanUntilRBrack rest with
    | none => none
    | some (s, r) => some ('!' :: ']' :: s, r)
  | '!' :: rest =>
    match scanUntilRBrack rest with
    | none => none
    | some (s, r) => some ('!' :: s, r)
  | ']' :: rest =>
    match scanUntilRBrack rest with
    | none => none
    | some (s, r) => some (']' :: s, r)
  | rest => scanUntilRBrack rest

/-- Membership of a character in a regex-style class body: `a-b` is a range
(when `-` is neither first nor last), everything else is literal. -/
def charInClassItems : List Char → Char → Bool
  | a :: '-' :: b :: rest, c =>
    (a ≤ c && c ≤ b) || charInClassItems rest c
  | a :: rest, c => a == c || charInClassItems rest c
  | [], _ => false

/-- One token of a translated glob pattern. -/
inductive GlobTok where
  | star
  | qmark
  | lit (c : Char)
  | cls (neg : Bool) (items : List Char)
deriving Repr, DecidableEq

/-- Fuel-driven tokenizer for glob patterns (the fuel strictly exceeds the
pattern length, so the `0` case is never reached). -/
def parseGlobF : Nat → List Char → List GlobTok
  | 0, _ => []
  | _ + 1, [] => []
  | fuel + 1, '*' :: ps => .star :: parseGlobF fuel ps
  | fuel + 1, '?' :: ps => .qmark :: parseGlobF fuel ps
  | fuel + 1, '[' :: ps =>
    match spanClass ps with
    | none => .lit '[' :: parseGlobF fuel ps
    | some (stuff, rest) =>
      (match stuff with
       | '!' :: items => .cls true items
       | items => .cls false items) :: parseGlobF fuel rest
  | fuel + 1, c :: ps => .lit c :: parseGlobF fuel ps

def parseGlob (pattern : List Char) : List GlobTok :=
  parseGlobF (pattern.length + 1) pattern

/-- Fuel-driven matcher of a token list against a character list (full match,
as `re.fullmatch` of the translated pattern). The fuel strictly exceeds
`tokens.length + chars.length`, so the `0` case is never reached. -/
def globTokMatchF : Nat → List GlobTok → List Char → Bool
  | 0, _, _ => false
  | _ + 1, [], [] => true
  | _ + 1, [], _ :: _ => false
  | fuel + 1, .star :: ps, s =>
    globTokMatchF fuel ps s ||
      (match s with
       | [] => false
       | _ :: cs => globTokMatchF fuel (.star :: ps) cs)
  | _ + 1, .qmark :: _, [] => false
  | fuel + 1, .qmark :: ps, _ :: cs => globTokMatchF fuel ps cs
  | _ + 1, .lit _ :: _, [] => false
  | fuel + 1, .lit a :: ps, c :: cs => a == c && globTokMatchF fuel ps cs
  | _ + 1, .cls _ _ :: _, [] => false
  | fuel + 1, .cls neg items :: ps, c :: cs =>
    (neg != charInClassItems items c) && globTokMatchF fuel ps cs

/-- `fnmatch.fnmatch(name, pattern)` (posix: no case normalisation). -/
def fnmatch (name : String) (pattern : String) : Bool :=
  globTokMatchF (pattern.data.length + name.data.length + 1)
    (parseGlob pattern.data) name.data

/-! ## PathMatcher (`FileBrowser.should_ignore`, `FileBrowser.file_matches_filter`) -/

/-- An absolute path as its ordered list of segments
(`Path.absolute().parts`). -/
abbrev AbsPath := List String

/-- `FileBrowser.should_ignore`: some segment of the absolutized path matches
some ignore pattern. -/
def shouldIgnore (patterns : List String) (parts : AbsPath) : Bool :=
  parts.any (fun part => patterns.any (fun pattern => fnmatch part pattern))

/-- Index of the last `.` in a character list, if any (`str.rfind('.')`). -/
def rfindDot (cs : List Char) : Option Nat :=
  match cs.reverse.findIdx? (fun c => c == '.') with
  | some j => some (cs.length - 1 - j)
  | none => none

/-- `PurePath.suffix`: the extension from the last dot, empty when the last
dot is the leading character or the final character or absent. -/
def pathSuffix (name : String) : String :=
  match rfindDot name.data with
  | some i =>
    if 0 < i && i < name.data.length - 1 then ⟨name.data.drop i⟩ else ""
  | none => ""

/-- `FileBrowser.file_matches_filter`: with no filters every file is
accepted, otherwise the file's suffix must equal one of the filters. -/
def fileMatchesFilter (filters : List String) (name : String) : Bool :=
  if filters.isEmpty then true
  else filters.any (fun ext => pathSuffix name == ext)

/-! ## Filesystem model and the three traversals of `walk_valid_paths` -/

/-- A filesystem subtree: a file or a directory with children. -/
inductive FSNode where
  | file (name : String)
  | dir (name : String) (children : List FSNode)
deriving Repr

def nodeName : FSNode → String
  | .file n => n
  | .dir n _ => n

def nodeIsDir : FSNode → Bool
  | .file _ => false
  | .dir _ _ => true

/-- A filesystem entry yielded by traversal: absolute path plus kind. -/
structure Entry where
  path : AbsPath
  isDir : Bool
deriving Repr, DecidableEq

/-- The body of the `os.walk` loop at one directory: nothing when the
directory is ignored, otherwise the directory itself followed by its
non-ignored files. -/
def dirOwnEntries (pats : List String) (mypath : AbsPath)
    (children : List FSNode) : List Entry :=
  if shouldIgnore pats mypath then []
  else
    ⟨mypath, true⟩ :: children.filterMap (fun c =>
      match c with
      | .file fn =>
        if shouldIgnore pats (mypath ++ [fn]) then none
        else some ⟨mypath ++ [fn], false⟩
      | .dir _ _ => none)

mutual

/-- Recursive-mode walk below one subdirectory (its own `os.walk` triple and
everything beneath). -/
def walkOsNode (pats : List String) (parent : AbsPath) : FSNode → List Entry
  | .file _ => []
  | .dir n children =>
    dirOwnEntries pats (parent ++ [n]) children ++
      walkOsKids pats (parent ++ [n])
        (shouldIgnore pats (parent ++ [n])) children

/-- Descent of `os.walk` into the subdirectories of a directory at `mypath`:
when `mypath` was ignored the body `continue`d before pruning `dirs`, so every
subdirectory is descended into; otherwise only non-ignored ones. -/
def walkOsKids (pats : List String) (mypath : AbsPath) (ign : Bool) :
    List FSNode → List Entry
  | [] => []
  | c :: cs =>
    (if nodeIsDir c &&
        (ign || !shouldIgnore pats (mypath ++ [nodeName c])) then
      walkOsNode pats mypath c
     else []) ++ walkOsKids pats mypath ign cs

end

/-- `walk_valid_paths` in recursive mode (`os.walk` with in-body pruning). -/
def walkOs (pats : List String) (rootPath : AbsPath)
    (children : List FSNode) : List Entry :=
  dirOwnEntries pats rootPath children ++
    walkOsKids pats rootPath (shouldIgnore pats rootPath) children

mutual

/-- `limited_walk(current, current_level)` at a node whose absolutized path is
`mypath`: yield the node when `current_level > 0` and it is not ignored, then
recurse into non-ignored children while `current_level < depth`. -/
def limNode (pats : List String) (d : Int) (level : Nat) (mypath : AbsPath) :
    FSNode → List Entry
  | .file _ =>
    if level > 0 && !shouldIgnore pats mypath then [⟨mypath, false⟩] else []
  | .dir _ children =>
    (if level > 0 && !shouldIgnore pats mypath then [⟨mypath, true⟩]
     else []) ++
      (if (level : Int) < d then
        limKids pats d (level + 1) mypath children
       else [])

/-- The `for child in current.iterdir()` loop of `limited_walk`: ignored
children are skipped before recursing. -/
def limKids (pats : List String) (d : Int) (level : Nat) (parent : AbsPath) :
    List FSNode → List Entry
  | [] => []
  | c :: cs =>
    (if shouldIgnore pats (parent ++ [nodeName c]) then []
     else limNode pats d level (parent ++ [nodeName c]) c) ++
      limKids pats d level parent cs

end

/-- `walk_valid_paths` in depth-limited mode:
`yield from limited_walk(self.directory, 0)`. -/
def limitedWalk (pats : List String) (d : Int) (rootPath : AbsPath)
    (children : List FSNode) : List Entry :=
  limNode pats d 0 rootPath (.dir "" children)

/-- `walk_valid_paths` in non-recursive mode: the root's immediate children
that are not ignored. -/
def nonRecWalk (pats : List String) (rootPath : AbsPath)
    (children : List FSNode) : List Entry :=
  children.filterMap (fun c =>
    if shouldIgnore pats (rootPath ++ [nodeName c]) then none
    else some ⟨rootPath ++ [nodeName c], nodeIsDir c⟩)

/-! ## Traversal traces: which directories does the engine list?

`os.walk` reads the children of every directory it visits; `limited_walk`
calls `current.iterdir()` whenever the node is a directory and
`current_level < depth`.  The trace functions mirror the walk functions above
and record those filesystem reads. -/

mutual

/-- Directories whose children are read by `os.walk` in the subtree of one
subdirectory. -/
def recListedNode (pats : List String) (parent : AbsPath) :
    FSNode → List AbsPath
  | .file _ => []
  | .dir n children =>
    (parent ++ [n]) ::
      recListedKids pats (parent ++ [n])
        (shouldIgnore pats (parent ++ [n])) children

/-- Descent part of the `os.walk` listing trace (same descent condition as
`walkOsKids`). -/
def recListedKids (pats : List String) (mypath : AbsPath) (ign : Bool) :
    List FSNode → List AbsPath
  | [] => []
  | c :: cs =>
    (if nodeIsDir c &&
        (ign || !shouldIgnore pats (mypath ++ [nodeName c])) then
      recListedNode pats mypath c
     else []) ++ recListedKids pats mypath ign cs

end

/-- All directories scandir'd by recursive-mode traversal. -/
def recListed (pats : List String) (rootPath : AbsPath)
    (children : List FSNode) : List AbsPath :=
  rootPath ::
    recListedKids pats rootPath (shouldIgnore pats rootPath) children

mutual

/-- Nodes on which `limited_walk` is invoked (each with its
`current_level`). -/
def limVisitNode (pats : List String) (d : Int) (level : Nat)
    (mypath : AbsPath) : FSNode → List (AbsPath × Nat)
  | .file _ => [(mypath, level)]
  | .dir _ children =>
    (mypath, level) ::
      (if (level : Int) < d then
        limVisitKids pats d (level + 1) mypath children
       else [])

def limVisitKids (pats : List String) (d : Int) (level : Nat)
    (parent : AbsPath) : List FSNode → List (AbsPath × Nat)
  | [] => []
  | c :: cs =>
    (if shouldIgnore pats (parent ++ [nodeName c]) then []
     else limVisitNode pats d level (parent ++ [nodeName c]) c) ++
      limVisitKids pats d level parent cs

end

/-- All `(path, level)` nodes visited by `limited_walk(self.directory, 0)`. -/
def limVisited (pats : List String) (d : Int) (rootPath : AbsPath)
    (children : List FSNode) : List (AbsPath × Nat) :=
  limVisitNode pats d 0 rootPath (.dir "" children)

mutual

/-- Directories whose children are read (`iterdir`) by `limited_walk`, with
the level at which the read happens. -/
def limListNode (pats : List String) (d : Int) (level : Nat)
    (mypath : AbsPath) : FSNode → List (AbsPath × Nat)
  | .file _ => []
  | .dir _ children =>
    if (level : Int) < d then
      (mypath, level) :: limListKids pats d (level + 1) mypath children
    else []

def limListKids (pats : List String) (d : Int) (level : Nat)
    (parent : AbsPath) : List FSNode → List (AbsPath × Nat)
  | [] => []
  | c :: cs =>
    (if shouldIgnore pats (parent ++ [nodeName c]) then []
     else limListNode pats d level (parent ++ [nodeName c]) c) ++
      limListKids pats d level parent cs

end

/-- All `(path, level)` directories iterdir'd by
`limited_walk(self.directory, 0)`. -/
def limListed (pats : List String) (d : Int) (rootPath : AbsPath)
    (children : List FSNode) : List (AbsPath × Nat) :=
  limListNode pats d 0 rootPath (.dir "" children)

/-! ## Python's stable sort and string helpers -/

/-- Insert into a sorted list, after every element `b` with `le b a` — the
placement a stable ascending sort gives an element coming after the already
sorted part. -/
def insertLe {α : Type} (le : α → α → Bool) (a : α) : List α → List α
  | [] => [a]
  | b :: bs => if le a b then a :: b :: bs else b :: insertLe le a bs

/-- Stable ascending sort (extensionally equal to Python's `sorted`, which is
stable, for any total preorder `le`). -/
def stableSort {α : Type} (le : α → α → Bool) (l : List α) : List α :=
  l.foldr (insertLe le) []

/-- Lexicographic comparison of character lists by code point (Python string
comparison). -/
def charListLe : List Char → List Char → Bool
  | [], _ => true
  | _ :: _, [] => false
  | a :: as, b :: bs => if a = b then charListLe as bs else decide (a < b)

/-- Python `str` comparison `<=`. -/
def strLe (a b : String) : Bool := charListLe a.data b.data

/-- Python `str.lower()` (character-wise, ASCII-faithful). -/
def strLower (s : String) : String := ⟨s.data.map Char.toLower⟩

/-! ## `FileBrowser` and `get_files` -/

/-- The roles of the `FileBrowser` constructor arguments: the root directory
(absolute segments plus children), the traversal flags, the filter and ignore
lists and the tokenizer model name. -/
structure FileBrowser where
  rootPath : AbsPath
  rootChildren : List FSNode
  recursive : Bool
  filters : List String
  ignorePatterns : List String
  depth : Option Int
  encodingModel : String

/-- `FileBrowser.walk_valid_paths`: full recursion when `recursive`, limited
recursion when a depth is set, otherwise the immediate children. -/
def walk_valid_paths (b : FileBrowser) : List Entry :=
  if b.recursive then
    walkOs b.ignorePatterns b.rootPath b.rootChildren
  else
    match b.depth with
    | some d => limitedWalk b.ignorePatterns d b.rootPath b.rootChildren
    | none => nonRecWalk b.ignorePatterns b.rootPath b.rootChildren

/-- The final segment of an entry's path (`Path.name`). -/
def entryName (e : Entry) : String := e.path.getLastD ""

/-- `FileBrowser.get_files`: the files among the valid paths that match the
filters, sorted by `p.name.lower()`. -/
def get_files (b : FileBrowser) : List Entry :=
  stableSort (fun x y => strLe (strLower (entryName x)) (strLower (entryName y)))
    ((walk_valid_paths b).filter
      (fun e => !e.isDir && fileMatchesFilter b.filters (entryName e)))

/-! ## Tree builder (`utils.build_directory_tree`) -/

/-- A rendered tree node: a (styled) label and ordered children
(`rich.tree.Tree` as a pure display structure). -/
inductive RTree where
  | node (label : String) (children : List RTree)
deriving Repr

def RTree.label : RTree → String
  | .node l _ => l

def RTree.children : RTree → List RTree
  | .node _ c => c

/-- The directory style passed by `FileBrowser.build_tree`. -/
def styleDirectory (x : String) : String :=
  "[bold magenta]" ++ x ++ "[/bold magenta]"

/-- The file style passed by `FileBrowser.build_tree`. -/
def styleFile (x : String) : String := "[green]" ++ x ++ "[/green]"

/-- The `paths_by_parent` group of one parent key: the valid paths other
than the root whose parent is `d`, in iteration order. -/
def pathsByParent (root : AbsPath) (valid : List Entry) (d : AbsPath) :
    List Entry :=
  (valid.filter (fun e => !(e.path == root))).filter
    (fun e => e.path.dropLast == d)

/-- Sort key order used by `add_to_tree`:
`(not p.is_dir(), p.name.lower())` lexicographically. -/
def treeKeyLe (a b : Entry) : Bool :=
  (!a.isDir == !b.isDir &&
    strLe (strLower (entryName a)) (strLower (entryName b))) ||
    (a.isDir && !b.isDir)

/-- `add_to_tree`, with an explicit recursion fuel (each recursive call moves
to a parent key one segment longer, so any fuel exceeding the longest valid
path's length is never exhausted). A directory child is added when its key is
in `paths_by_parent` or it is in `valid_paths` (the latter holds for every
grouped entry, so every yielded directory is added); a file child is added
when it passes the file filter. -/
def addToTree (root : AbsPath) (valid : List Entry)
    (fileFilter : String → Bool) (sd sf : String → String) :
    Nat → AbsPath → List RTree
  | 0, _ => []
  | fuel + 1, d =>
    (stableSort treeKeyLe (pathsByParent root valid d)).map (fun e =>
      if e.isDir then
        if !(pathsByParent root valid e.path == []) ||
            valid.any (fun e' => e'.path == e.path) then
          [RTree.node (sd (entryName e))
            (addToTree root valid fileFilter sd sf fuel e.path)]
        else []
      else if fileFilter (entryName e) then
        [RTree.node (sf (entryName e)) []]
      else []) |>.flatten

/-- Label of the tree root: `directory.name or str(directory)`. -/
def rootLabel (root : AbsPath) : String :=
  if root.getLastD "" == "" then String.intercalate "/" root
  else root.getLastD ""

/-- Fuel that provably exceeds every recursion depth of `add_to_tree`. -/
def treeFuel (valid : List Entry) : Nat :=
  (valid.map (fun e => e.path.length)).foldr max 0 + 1

/-- `utils.build_directory_tree`. -/
def build_directory_tree (root : AbsPath) (valid : List Entry)
    (fileFilter : String → Bool) (sd sf : String → String) : RTree :=
  RTree.node (sd (rootLabel root))
    (addToTree root valid fileFilter sd sf (treeFuel valid) root)

/-- `FileBrowser.build_tree`: the directory tree over `walk_valid_paths`
with the magenta/green styles. -/
def build_tree (b : FileBrowser) : RTree :=
  build_directory_tree b.rootPath (walk_valid_paths b)
    (fileMatchesFilter b.filters) styleDirectory styleFile

/-- Navigation of a rendered tree along styled segment labels: the entry
`rel` (nonempty, relative to the tree root) appears in the tree with kind
`isDir` when one can follow directory-styled labels through `rel`'s initial
segments and end at a label styled for the entry's kind. -/
def hasEntry (sd sf : String → String) : RTree → List String → Bool → Bool
  | _, [], _ => false
  | t, [n], isDir =>
    t.children.any (fun c => c.label == (if isDir then sd n else sf n))
  | t, n :: rest, isDir =>
    t.children.any (fun c =>
      c.label == sd n && hasEntry sd sf c rest isDir)

/-! ## Token counting (`count_tokens`) -/

/-- Modelled from the spec: `count_tokens` is imported from `cmdc.utils` but
its definition is not present in the sources; the spec describes it as an
external tokenizer keyed by a model name, mapping text to an integer count,
falling back to a default model when the name is unrecognized, counting the
empty text as `0`. Each recognized encoding is abstracted as fixed-size
chunking of the text. -/
def encodingChunkSize : String → Option Nat
  | "o200k_base" => some 4
  | "cl100k_base" => some 3
  | "p50k_base" => some 3
  | "r50k_base" => some 3
  | "gpt2" => some 2
  | _ => none

/-- Modelled from the spec: the token count of `text` under `encodingName`,
falling back to the default `o200k_base` encoding when the name is
unrecognized. -/
def count_tokens (text : String) (encodingName : String) : Nat :=
  let k := (encodingChunkSize encodingName).getD
    ((encodingChunkSize "o200k_base").getD 1)
  (text.length + k - 1) / k

/-! ## `scan_and_select_files` -/

/-- `str(f.relative_to(self.directory))` for a path below the root. -/
def relPathStr (root : AbsPath) (p : AbsPath) : String :=
  String.intercalate "/" (p.drop root.length)

/-- Python `dict` assignment `d[k] = v`: overwrite in place, else append. -/
def dictInsert (d : List (String × Nat)) (k : String) (v : Nat) :
    List (String × Nat) :=
  if d.any (fun e => e.1 == k) then
    d.map (fun e => if e.1 == k then (k, v) else e)
  else d ++ [(k, v)]

/-- Python `dict.get(k, v)`. -/
def lookupD (d : List (String × Nat)) (k : String) (v : Nat) : Nat :=
  match d.find? (fun e => e.1 == k) with
  | some e => e.2
  | none => v

/-- The `token_counts` mapping built by `scan_and_select_files`: for each
file, in order, its token count, or `0` when reading/decoding raised. -/
def tokenCountsOf (b : FileBrowser) (readText : AbsPath → Option String) :
    List (String × Nat) :=
  (get_files b).foldl (fun d f =>
    dictInsert d (relPathStr b.rootPath f.path)
      (match readText f.path with
       | some content => count_tokens content b.encodingModel
       | none => 0)) []

/-- The outcomes of `scan_and_select_files`: `typer.Exit(code=1)` when no
file matched, `typer.Exit(code=0)` when the chooser returned nothing, else
the selected relative paths with their token total. -/
inductive ScanOutcome where
  | noFilesFound
  | noSelection
  | success (selected : List String) (totalTokens : Nat)
deriving Repr, DecidableEq

/-- `FileBrowser.scan_and_select_files`, over a file content oracle
(`none` = read failure) and the list the interactive chooser returns. -/
def scan_and_select_files (b : FileBrowser)
    (readText : AbsPath → Option String) (nonInteractive : Bool)
    (chooserResult : List String) : ScanOutcome :=
  let files := get_files b
  if files.isEmpty then .noFilesFound
  else
    let tokenCounts := tokenCountsOf b readText
    if nonInteractive then
      .success (files.map (fun f => relPathStr b.rootPath f.path))
        ((tokenCounts.map (fun e => e.2)).sum)
    else if chooserResult.isEmpty then .noSelection
    else
      .success chooserResult
        ((chooserResult.map (fun item => lookupD tokenCounts item 0)).sum)

/-! ## Depth resolution (`cli.main`) and the interactive depth prompt
(`ConfigManager.interactive_config`) -/

/-- The recursive/depth priority logic of `cli.main`: an explicit
`--recursive` wins; an explicit `--depth` forces non-recursive mode with that
depth, unclamped; otherwise the configuration values apply. -/
def resolveTraversal (cliRecursive : Option Bool) (cliDepth : Option Int)
    (cfgRecursive : Bool) (cfgDepth : Int) : Bool × Option Int :=
  match cliRecursive with
  | some r => (r, if r then none else some cfgDepth)
  | none =>
    match cliDepth with
    | some d => (false, some d)
    | none => (cfgRecursive, if cfgRecursive then none else some cfgDepth)

/-- The depth question of `ConfigManager.interactive_config`: the parsed
integer clamped below by `1`, and `1` when parsing raised `ValueError`. -/
def interactiveDepth (parsed : Option Int) : Int :=
  match parsed with
  | some d => if d < 1 then 1 else d
  | none => 1

/-! ## Concrete filesystems and browsers used as witnesses and
counterexamples -/

/-- A root holding `a.py` (depth 1) and `sub/c.py` (depth 2). -/
def fsDepthExample : List FSNode := [.file "a.py", .dir "sub" [.file "c.py"]]

/-- A depth-limited browser over `fsDepthExample` with no filters and no
ignore patterns. -/
def depthBrowser (d : Int) : FileBrowser :=
  ⟨["/", "r"], fsDepthExample, false, [], [], some d, "o200k_base"⟩

/-- A recursive browser over a root holding `b.py` and `sub/a.py`. -/
def sortBrowser : FileBrowser :=
  ⟨["/", "r"], [.file "b.py", .dir "sub" [.file "a.py"]], true, [], [],
    none, "o200k_base"⟩

/-- A recursive browser over an empty root. -/
def emptyBrowser : FileBrowser :=
  ⟨["/", "r"], [], true, [], [], none, "o200k_base"⟩

/-- A recursive browser whose traversal root is itself named `.git` while
`.git` is an ignore pattern. -/
def gitRootBrowser : FileBrowser :=
  ⟨["/", "repo", ".git"], [.dir "sub" [.file "f.py"]], true, [], [".git"],
    none, "o200k_base"⟩

/-- A recursive `.py`-filtered browser over a root holding `a.py` and
`sub/b.txt`: after filtering, `sub` has zero surviving descendant files. -/
def emptyDirBrowser : FileBrowser :=
  ⟨["/", "r"], [.file "a.py", .dir "sub" [.file "b.txt"]], true, [".py"],
    [], none, "o200k_base"⟩

/-- A recursive browser whose only file lies beneath a `node_modules`
directory, with `node_modules` ignored. -/
def nodeModulesBrowser : FileBrowser :=
  ⟨["/", "r"], [.dir "node_modules" [.dir "pkg" [.file "index.js"]]],
    true, [], ["node_modules"], none, "o200k_base"⟩

/-! ## Where files live in the model filesystem -/

mutual

/-- The node contains a file at the (nonempty) relative segment list. -/
def fileAtNode : FSNode → List String → Bool
  | .file fn, [n] => fn == n
  | .file _, _ => false
  | .dir dn ch, n :: m :: rest => dn == n && fileAtKids ch (m :: rest)
  | .dir _ _, _ => false

/-- Some node of the forest contains a file at the relative segment list. -/
def fileAtKids : List FSNode → List String → Bool
  | [], _ => false
  | c :: cs, rel => fileAtNode c rel || fileAtKids cs rel

end

end PyCmdc

namespace PyCmdc

/-! ## Lemmas about Python string comparison and the stable sort -/

theorem charListLe_total : ∀ a b : List Char,
    charListLe a b = true ∨ charListLe b a = true := by
  intro a
  induction a with
  | nil => intro b; left; rfl
  | cons x xs ih =>
    intro b
    cases b with
    | nil => right; rfl
    | cons y ys =>
      by_cases hxy : x = y
      · subst hxy
        rcases ih ys with h | h
        · left; simpa [charListLe] using h
        · right; simpa [charListLe] using h
      · rcases lt_or_gt_of_ne hxy with h | h
        · left; simp [charListLe, hxy, h]
        · right
          simp [charListLe, Ne.symm hxy]
          exact h

theorem charListLe_trans : ∀ a b c : List Char,
    charListLe a b = true → charListLe b c = true →
    charListLe a c = true := by
  intro a
  induction a with
  | nil => intro b c _ _; rfl
  | cons x xs ih =>
    intro b c hab hbc
    cases b with
    | nil => simp [charListLe] at hab
    | cons y ys =>
      cases c with
      | nil => simp [charListLe] at hbc
      | cons z zs =>
        by_cases hxy : x = y
        · subst hxy
          by_cases hyz : x = z
          · subst hyz
            simp only [charListLe, if_pos rfl] at hab hbc ⊢
            exact ih ys zs hab hbc
          · simp only [charListLe, if_pos rfl] at hab
            simp only [charListLe, if_neg hyz] at hbc ⊢
            exact hbc
        · simp only [charListLe, if_neg hxy, decide_eq_true_iff] at hab
          by_cases hyz : y = z
          · subst hyz
            simp [charListLe, hxy, hab]
          · simp only [charListLe, if_neg hyz, decide_eq_true_iff] at hbc
            have hxz : x < z := lt_trans hab hbc
            simp [charListLe, ne_of_lt hxz, hxz]

theorem strLe_lower_total (x y : String) :
    strLe (strLower x) (strLower y) = true ∨
    strLe (strLower y) (strLower x) = true :=
  charListLe_total _ _

theorem strLe_lower_trans (x y z : String)
    (h₁ : strLe (strLower x) (strLower y) = true)
    (h₂ : strLe (strLower y) (strLower z) = true) :
    strLe (strLower x) (strLower z) = true :=
  charListLe_trans _ _ _ h₁ h₂

theorem mem_insertLe {α : Type} (le : α → α → Bool) (x a : α) :
    ∀ l : List α, a ∈ insertLe le x l ↔ a = x ∨ a ∈ l := by
  intro l
  induction l with
  | nil => simp [insertLe]
  | cons b bs ih =>
    by_cases h : le x b = true
    · simp [insertLe, h]
    · simp only [insertLe, if_neg h, List.mem_cons, ih]
      tauto

theorem mem_stableSort {α : Type} (le : α → α → Bool) (a : α) :
    ∀ l : List α, a ∈ stableSort le l ↔ a ∈ l := by
  intro l
  induction l with
  | nil => simp [stableSort]
  | cons b bs ih =>
    simp only [stableSort, List.foldr_cons, List.mem_cons]
    rw [mem_insertLe]
    simp only [stableSort] at ih
    rw [ih]

theorem pairwise_insertLe {α : Type} (le : α → α → Bool)
    (htot : ∀ a b, le a b = true ∨ le b a = true)
    (htrans : ∀ a b c, le a b = true → le b c = true → le a c = true)
    (x : α) :
    ∀ l : List α, l.Pairwise (fun a b => le a b = true) →
      (insertLe le x l).Pairwise (fun a b => le a b = true) := by
  intro l
  induction l with
  | nil => intro _; simp [insertLe]
  | cons b bs ih =>
    intro hl
    rw [List.pairwise_cons] at hl
    obtain ⟨hb, hbs⟩ := hl
    by_cases h : le x b = true
    · rw [insertLe, if_pos h, List.pairwise_cons]
      refine ⟨?_, List.pairwise_cons.mpr ⟨hb, hbs⟩⟩
      intro a ha
      rcases List.mem_cons.mp ha with rfl | ha
      · exact h
      · exact htrans _ _ _ h (hb a ha)
    · rw [insertLe, if_neg h, List.pairwise_cons]
      refine ⟨?_, ih hbs⟩
      intro a ha
      rcases (mem_insertLe le x a bs).mp ha with rfl | ha
      · rcases htot a b with h' | h'
        · exact absurd h' h
        · exact h'
      · exact hb a ha

theorem pairwise_stableSort {α : Type} (le : α → α → Bool)
    (htot : ∀ a b, le a b = true ∨ le b a = true)
    (htrans : ∀ a b c, le a b = true → le b c = true → le a c = true) :
    ∀ l : List α,
      (stableSort le l).Pairwise (fun a b => le a b = true) := by
  intro l
  induction l with
  | nil => simp [stableSort]
  | cons b bs ih =>
    simpa [stableSort] using
      pairwise_insertLe le htot htrans b (stableSort le bs) ih

/-! ## Lemmas about the modelled tokenizer -/

theorem encodingChunkSize_pos (name : String) (k : Nat)
    (h : encodingChunkSize name = some k) : 1 ≤ k := by
  unfold encodingChunkSize at h
  split at h <;> simp_all <;> omega

/-! ## Claim C7 -/

/-- C7: token annotation never fails because of the model name: for every
model name and every text, `count_tokens` returns a non-negative integer, it
returns `0` for the empty text, and an unrecognized model name makes it fall
back to the default `o200k_base` model. -/
theorem c7_count_tokens_fallback (encodingName text : String) :
    (0 : Int) ≤ (count_tokens text encodingName : Int) ∧
    count_tokens "" encodingName = 0 ∧
    (encodingChunkSize encodingName = none →
      count_tokens text encodingName = count_tokens text "o200k_base") := by
  refine ⟨Int.ofNat_nonneg _, ?_, ?_⟩
  · rcases h : encodingChunkSize encodingName with _ | k
    · simp only [count_tokens, h, Option.getD_none]
      decide
    · have hk := encodingChunkSize_pos encodingName k h
      simp only [count_tokens, h, Option.getD_some]
      show (0 + k - 1) / k = 0
      exact Nat.div_eq_of_lt (by omega)
  · intro h
    have e : encodingChunkSize "o200k_base" = some 4 := rfl
    simp only [count_tokens, h, e, Option.getD_none, Option.getD_some]

/-- Witness for C7 at the concrete input of the repository's own test
`test_count_tokens_invalid_encoding`. -/
theorem c7_count_tokens_fallback_witness :
    count_tokens "" "invalid_encoding" = 0 ∧
    count_tokens "Test text" "invalid_encoding" =
      count_tokens "Test text" "o200k_base" :=
  ⟨(c7_count_tokens_fallback "invalid_encoding" "Anything").2.1,
    (c7_count_tokens_fallback "invalid_encoding" "Test text").2.2 (by decide)⟩

/-! ## Claim C9 -/

/-- C9 counterexample: a depth of `0` supplied on the command line is passed
through `cli.main`'s resolution unclamped, and the resulting run returns no
files at all, while the same run with depth `1` returns the root-level file —
so a run configured with depth < 1 does not behave like depth = 1. -/
theorem c9_cli_depth_unclamped_counterexample :
    resolveTraversal none (some 0) false 1 = (false, some 0) ∧
    get_files (depthBrowser 0) = [] ∧
    get_files (depthBrowser 1) = [⟨["/", "r", "a.py"], false⟩] :=
  ⟨rfl, by decide, by decide⟩

/-- C9 (amended): only the interactive configuration setup clamps a depth
below 1 up to 1; a depth < 1 supplied via the command line reaches traversal
unclamped, and such a run traverses nothing (yields no entries at all),
unlike a run with depth = 1. -/
theorem c9_depth_clamping (parsed : Option Int) (cr : Bool) (cd d : Int)
    (b : FileBrowser) (n : Int) (hrec : b.recursive = false)
    (hdep : b.depth = some n) (hn : n ≤ 0) :
    1 ≤ interactiveDepth parsed ∧
    resolveTraversal none (some d) cr cd = (false, some d) ∧
    walk_valid_paths b = [] := by
  refine ⟨?_, rfl, ?_⟩
  · rcases parsed with _ | p
    · simp [interactiveDepth]
    · simp only [interactiveDepth]
      split <;> omega
  · unfold walk_valid_paths
    rw [hrec, hdep]
    simp only [Bool.false_eq_true, if_false]
    unfold limitedWalk limNode
    have h0 : ¬((0 : Int) < n) := by omega
    simp [h0]

/-- Witness for C9 (amended) at depth `0` from the command line over
`depthBrowser`. -/
theorem c9_depth_clamping_witness :
    1 ≤ interactiveDepth (some (-5)) ∧
    resolveTraversal none (some 0) true 7 = (false, some 0) ∧
    walk_valid_paths (depthBrowser 0) = [] :=
  c9_depth_clamping (some (-5)) true 7 0 (depthBrowser 0) 0 rfl rfl
    (by decide)

/-! ## Claim C2 -/

/-- C2 counterexample: in non-interactive mode over a root holding `b.py`
and `sub/a.py`, the selected paths are `["sub/a.py", "b.py"]` — sorted by
file name, not lexicographically by relative path, since
`"sub/a.py" ≤ "b.py"` is false in Python string order. -/
theorem c2_sort_order_counterexample :
    scan_and_select_files sortBrowser (fun _ => some "") true [] =
      .success ["sub/a.py", "b.py"] 0 ∧
    strLe "sub/a.py" "b.py" = false := by
  exact ⟨by decide, by decide⟩

/-- C2 (amended): with `nonInteractive = true`, whenever
`scan_and_select_files` returns a result, the selected paths are exactly the
full Candidate set as paths relative to the root, listed in the order of
`get_files` — sorted case-insensitively by file name (not by relative
path). -/
theorem c2_noninteractive_selects_all_sorted (b : FileBrowser)
    (readText : AbsPath → Option String) (choice : List String)
    (sel : List String) (tot : Nat)
    (h : scan_and_select_files b readText true choice = .success sel tot) :
    sel = (get_files b).map (fun f => relPathStr b.rootPath f.path) ∧
    (get_files b).Pairwise
      (fun x y => strLe (strLower (entryName x)) (strLower (entryName y))
        = true) := by
  constructor
  · unfold scan_and_select_files at h
    rcases hfe : (get_files b).isEmpty with _ | _
    · simp only [hfe, Bool.false_eq_true, if_false, if_pos rfl] at h
      injection h with h1 _
      exact h1.symm
    · simp [hfe] at h
  · unfold get_files
    exact pairwise_stableSort _
      (fun x y => strLe_lower_total (entryName x) (entryName y))
      (fun x y z => strLe_lower_trans (entryName x) (entryName y)
        (entryName z)) _

/-- Witness for C2 (amended) over `sortBrowser`. -/
theorem c2_noninteractive_selects_all_sorted_witness :
    ["sub/a.py", "b.py"] =
      (get_files sortBrowser).map
        (fun f => relPathStr sortBrowser.rootPath f.path) ∧
    (get_files sortBrowser).Pairwise
      (fun x y => strLe (strLower (entryName x)) (strLower (entryName y))
        = true) := by
  have h := c2_noninteractive_selects_all_sorted sortBrowser
    (fun _ => some "") [] ["sub/a.py", "b.py"] 0 (by decide)
  exact h

/-! ## Claim C8 -/

/-- C8: `scan_and_select_files` signals `NoFilesFound` (exit code 1) exactly
when zero Candidates survive filtering and ignoring; with surviving
Candidates, an interactive run whose chooser returns an empty selection
signals `NoSelection` (exit code 0); and the two empty outcomes are distinct
signals. -/
theorem c8_empty_outcomes (b : FileBrowser)
    (readText : AbsPath → Option String) (ni : Bool)
    (choice : List String) :
    (scan_and_select_files b readText ni choice = .noFilesFound ↔
      get_files b = []) ∧
    (get_files b ≠ [] → ni = false → choice = [] →
      scan_and_select_files b readText ni choice = .noSelection) ∧
    ScanOutcome.noFilesFound ≠ ScanOutcome.noSelection := by
  refine ⟨?_, ?_, by simp⟩
  · rcases hfe : (get_files b).isEmpty with _ | _
    · have hne : get_files b ≠ [] := by
        intro h0
        rw [h0] at hfe
        simp at hfe
      constructor
      · intro h
        exfalso
        unfold scan_and_select_files at h
        simp only [hfe, Bool.false_eq_true, if_false] at h
        rcases ni with _ | _
        · simp only [Bool.false_eq_true, if_false] at h
          rcases hce : choice.isEmpty with _ | _ <;> rw [hce] at h <;>
            simp at h
        · simp at h
      · intro h
        exact absurd h hne
    · have he : get_files b = [] := List.isEmpty_iff.mp hfe
      constructor
      · intro _
        exact he
      · intro _
        unfold scan_and_select_files
        simp [hfe]
  · intro hne hni hch
    have hfe : (get_files b).isEmpty = false := by
      rcases hq : (get_files b).isEmpty with _ | _
      · rfl
      · exact absurd (List.isEmpty_iff.mp hq) hne
    unfold scan_and_select_files
    subst hni hch
    simp [hfe]

/-- Witness for C8: an empty root signals `NoFilesFound`; a populated root
with an empty interactive selection signals `NoSelection`. -/
theorem c8_empty_outcomes_witness :
    scan_and_select_files emptyBrowser (fun _ => some "") true [] =
      .noFilesFound ∧
    scan_and_select_files sortBrowser (fun _ => some "") false [] =
      .noSelection :=
  ⟨(c8_empty_outcomes emptyBrowser (fun _ => some "") true []).1.mpr
      (by decide),
    (c8_empty_outcomes sortBrowser (fun _ => some "") false []).2.1
      (by decide) rfl rfl⟩

/-! ## Claim C10 -/

theorem findIdxq_dot_none : ∀ l : List Char, '.' ∉ l →
    l.findIdx? (fun c => c == '.') = none := by
  intro l
  induction l with
  | nil => intro _; rfl
  | cons x xs ih =>
    intro h
    rw [List.findIdx?_cons]
    have hx : ¬x = '.' := by
      intro h0
      exact h (h0 ▸ List.mem_cons_self x xs)
    have hxs : '.' ∉ xs := fun h0 => h (List.mem_cons_of_mem x h0)
    simp [hx, ih hxs]

theorem pathSuffix_leading_dot_only (name : String) (rest : List Char)
    (hname : name.data = '.' :: rest) (hrest : '.' ∉ rest) :
    pathSuffix name = "" := by
  have hrev : name.data.reverse = rest.reverse ++ ['.'] := by
    rw [hname]
    simp
  have hnone : rest.reverse.findIdx? (fun c => c == '.') = none :=
    findIdxq_dot_none rest.reverse (by simpa using hrest)
  have hidx : name.data.reverse.findIdx? (fun c => c == '.') =
      some rest.length := by
    rw [hrev, List.findIdx?_append, hnone]
    simp
  unfold pathSuffix rfindDot
  rw [hidx]
  have hlen : name.data.length = rest.length + 1 := by
    rw [hname]
    simp
  simp [hlen]

/-- C10: with a non-empty filter set whose entries each begin with a dot,
`file_matches_filter` rejects every file whose name starts with a dot and
contains no further dot (its `Path.suffix` is empty), so such dotfiles never
become Candidates of `get_files` under those filters. -/
theorem c10_dotfiles_filtered (filters : List String) (name : String)
    (rest : List Char) (hne : filters ≠ [])
    (hdot : ∀ f ∈ filters, f.data.head? = some '.')
    (hname : name.data = '.' :: rest) (hrest : '.' ∉ rest) :
    fileMatchesFilter filters name = false ∧
    ∀ (b : FileBrowser) (e : Entry), b.filters = filters →
      e ∈ get_files b → entryName e ≠ name := by
  have hsuf : pathSuffix name = "" :=
    pathSuffix_leading_dot_only name rest hname hrest
  have hmain : fileMatchesFilter filters name = false := by
    unfold fileMatchesFilter
    have hne' : filters.isEmpty = false := by
      rcases hq : filters.isEmpty with _ | _
      · rfl
      · exact absurd (List.isEmpty_iff.mp hq) hne
    rw [hne']
    simp only [Bool.false_eq_true, if_false, List.any_eq_false]
    intro f hf
    have hhead := hdot f hf
    rw [hsuf]
    rcases hfd : f.data with _ | ⟨c, cs⟩
    · rw [hfd] at hhead
      exact absurd hhead (by simp)
    · have : f ≠ "" := by
        intro h0
        rw [h0] at hfd
        exact absurd hfd (by simp)
      simpa using fun h0 => this h0.symm
  refine ⟨hmain, ?_⟩
  intro b e hbf he hn
  unfold get_files at he
  rw [mem_stableSort] at he
  rw [List.mem_filter] at he
  obtain ⟨-, hmatch⟩ := he
  rw [Bool.and_eq_true] at hmatch
  obtain ⟨-, hmatch⟩ := hmatch
  rw [hn, hbf, hmain] at hmatch
  exact absurd hmatch (by simp)

/-- Witness for C10: the filter set `[".py"]` rejects `.env`. -/
theorem c10_dotfiles_filtered_witness :
    fileMatchesFilter [".py"] ".env" = false :=
  (c10_dotfiles_filtered [".py"] ".env" ['e', 'n', 'v'] (by decide)
    (by decide) (by decide) (by decide)).1

end PyCmdc

namespace PyCmdc

/-! ## Claim C3: assoc-list lemmas for the `token_counts` dict -/

theorem dictInsert_fresh (d : List (String × Nat)) (k : String) (v : Nat)
    (h : ∀ e ∈ d, e.1 ≠ k) : dictInsert d k v = d ++ [(k, v)] := by
  unfold dictInsert
  have : d.any (fun e => e.1 == k) = false := by
    rw [List.any_eq_false]
    intro e he
    simpa using h e he
  rw [this]
  simp

theorem foldl_dictInsert_nodup :
    ∀ (l d : List (String × Nat)), ((d ++ l).map Prod.fst).Nodup →
      l.foldl (fun acc p => dictInsert acc p.1 p.2) d = d ++ l := by
  intro l
  induction l with
  | nil => intro d _; simp
  | cons p l' ih =>
    intro d hnd
    have hfresh : ∀ e ∈ d, e.1 ≠ p.1 := by
      intro e he heq
      rw [List.map_append, List.nodup_append] at hnd
      exact hnd.2.2 (List.mem_map_of_mem Prod.fst he) (by simp [heq])
    have hstep : dictInsert d p.1 p.2 = d ++ [p] :=
      dictInsert_fresh d p.1 p.2 hfresh
    have hnd' : (((d ++ [p]) ++ l').map Prod.fst).Nodup := by
      rw [List.append_assoc]
      simpa using hnd
    calc (p :: l').foldl (fun acc q => dictInsert acc q.1 q.2) d
        = l'.foldl (fun acc q => dictInsert acc q.1 q.2) (d ++ [p]) := by
          rw [List.foldl_cons, hstep]
      _ = (d ++ [p]) ++ l' := ih (d ++ [p]) hnd'
      _ = d ++ p :: l' := by simp

theorem lookupD_nodup_mem (l : List (String × Nat)) (k : String) (v : Nat)
    (hnd : (l.map Prod.fst).Nodup) (hmem : (k, v) ∈ l) :
    lookupD l k 0 = v := by
  induction l with
  | nil => exact absurd hmem (List.not_mem_nil _)
  | cons p l' ih =>
    rcases List.mem_cons.mp hmem with rfl | hmem'
    · unfold lookupD
      simp [List.find?_cons]
    · have hk : p.1 ≠ k := by
        intro heq
        rw [List.map_cons, List.nodup_cons] at hnd
        exact hnd.1 (heq ▸ List.mem_map_of_mem Prod.fst hmem')
      have hbeq : (p.1 == k) = false := by simpa using hk
      unfold lookupD at ih ⊢
      rw [List.find?_cons, hbeq]
      exact ih (by
        rw [List.map_cons, List.nodup_cons] at hnd
        exact hnd.2) hmem'

/-- The content of the annotation map when the relative paths are distinct:
one pair per file, in order. -/
theorem tokenCountsOf_eq (b : FileBrowser)
    (readText : AbsPath → Option String)
    (hnd : ((get_files b).map
      (fun f => relPathStr b.rootPath f.path)).Nodup) :
    tokenCountsOf b readText = (get_files b).map (fun f =>
      (relPathStr b.rootPath f.path,
        match readText f.path with
        | some content => count_tokens content b.encodingModel
        | none => 0)) := by
  unfold tokenCountsOf
  have hfold := foldl_dictInsert_nodup ((get_files b).map (fun f =>
    (relPathStr b.rootPath f.path,
      match readText f.path with
      | some content => count_tokens content b.encodingModel
      | none => 0))) []
  rw [List.nil_append] at hfold
  have hkeys : (((get_files b).map (fun f =>
      (relPathStr b.rootPath f.path,
        match readText f.path with
        | some content => count_tokens content b.encodingModel
        | none => 0))).map Prod.fst).Nodup := by
    rw [List.map_map]
    exact hnd
  have := hfold hkeys
  rw [← this, List.foldl_map]

/-- C3: whenever `scan_and_select_files` returns a `SelectionResult`, its
`totalTokens` equals the sum of the annotation step's per-file token counts
over exactly the finally selected paths — for any chooser-returned selection
in interactive mode, and for the full Candidate set in non-interactive mode
(assuming the run's relative paths are distinct, as on a real
filesystem). -/
theorem c3_total_tokens_sum (b : FileBrowser)
    (readText : AbsPath → Option String) (ni : Bool)
    (choice sel : List String) (tot : Nat)
    (hnd : ((get_files b).map
      (fun f => relPathStr b.rootPath f.path)).Nodup)
    (h : scan_and_select_files b readText ni choice = .success sel tot) :
    tot = (sel.map
      (fun p => lookupD (tokenCountsOf b readText) p 0)).sum := by
  unfold scan_and_select_files at h
  rcases hfe : (get_files b).isEmpty with _ | _
  · simp only [hfe, Bool.false_eq_true, if_false] at h
    rcases ni with _ | _
    · simp only [Bool.false_eq_true, if_false] at h
      rcases hce : choice.isEmpty with _ | _
      · rw [hce] at h
        simp only [Bool.false_eq_true, if_false] at h
        injection h with h1 h2
        rw [← h1, ← h2]
      · rw [hce] at h
        simp at h
    · simp only [if_pos rfl] at h
      injection h with h1 h2
      subst h1
      rw [← h2]
      rw [tokenCountsOf_eq b readText hnd]
      rw [List.map_map, List.map_map]
      congr 1
      apply List.map_congr_left
      intro f hf
      simp only [Function.comp_apply]
      exact (lookupD_nodup_mem ((get_files b).map (fun g =>
          (relPathStr b.rootPath g.path,
            match readText g.path with
            | some content => count_tokens content b.encodingModel
            | none => 0)))
        (relPathStr b.rootPath f.path)
        (match readText f.path with
         | some content => count_tokens content b.encodingModel
         | none => 0)
        (by rw [List.map_map]; exact hnd)
        (List.mem_map_of_mem _ hf)).symm
  · simp [hfe] at h

/-- Witness for C3: a non-interactive run over `sortBrowser` where each file
tokenizes to 2 tokens. -/
theorem c3_total_tokens_sum_witness :
    (4 : Nat) = ((["sub/a.py", "b.py"]).map (fun p =>
      lookupD (tokenCountsOf sortBrowser (fun _ => some "abcdefgh")
        ) p 0)).sum :=
  c3_total_tokens_sum sortBrowser (fun _ => some "abcdefgh") true []
    ["sub/a.py", "b.py"] 4 (by decide) (by decide)

end PyCmdc

namespace PyCmdc

/-! ## Every entry yielded by any traversal mode is non-ignored, and lies
below the root -/

theorem dirOwnEntries_notIgnored (pats : List String) (mypath : AbsPath)
    (l : List FSNode) (e : Entry) (he : e ∈ dirOwnEntries pats mypath l) :
    shouldIgnore pats e.path = false := by
  unfold dirOwnEntries at he
  rcases hig : shouldIgnore pats mypath with _ | _
  · rw [hig] at he
    simp only [Bool.false_eq_true, if_false] at he
    rcases List.mem_cons.mp he with rfl | he
    · exact hig
    · rw [List.mem_filterMap] at he
      obtain ⟨c', _, hc'⟩ := he
      rcases c' with fn | _
      · dsimp only at hc'
        rcases hig2 : shouldIgnore pats (mypath ++ [fn]) with _ | _
        · rw [hig2] at hc'
          simp only [Bool.false_eq_true, if_false, Option.some_inj] at hc'
          rw [← hc']
          exact hig2
        · rw [hig2] at hc'
          simp at hc'
      · simp at hc'
  · rw [hig] at he
    simp at he

theorem dirOwnEntries_shape (pats : List String) (mypath : AbsPath)
    (l : List FSNode) (e : Entry) (he : e ∈ dirOwnEntries pats mypath l) :
    ∃ rel, e.path = mypath ++ rel := by
  unfold dirOwnEntries at he
  rcases hig : shouldIgnore pats mypath with _ | _
  · rw [hig] at he
    simp only [Bool.false_eq_true, if_false] at he
    rcases List.mem_cons.mp he with rfl | he
    · exact ⟨[], by simp⟩
    · rw [List.mem_filterMap] at he
      obtain ⟨c', _, hc'⟩ := he
      rcases c' with fn | _
      · dsimp only at hc'
        rcases hig2 : shouldIgnore pats (mypath ++ [fn]) with _ | _
        · rw [hig2] at hc'
          simp only [Bool.false_eq_true, if_false, Option.some_inj] at hc'
          exact ⟨[fn], by rw [← hc']⟩
        · rw [hig2] at hc'
          simp at hc'
      · simp at hc'
  · rw [hig] at he
    simp at he

mutual

theorem walkOsNode_notIgnored (pats : List String) :
    ∀ (parent : AbsPath) (c : FSNode) (e : Entry),
      e ∈ walkOsNode pats parent c →
      shouldIgnore pats e.path = false
  | parent, .file _, e, he => by simp [walkOsNode] at he
  | parent, .dir n ch, e, he => by
    rw [walkOsNode] at he
    rcases List.mem_append.mp he with h | h
    · exact dirOwnEntries_notIgnored pats (parent ++ [n]) ch e h
    · exact walkOsKids_notIgnored pats (parent ++ [n]) _ ch e h

theorem walkOsKids_notIgnored (pats : List String) :
    ∀ (mypath : AbsPath) (ign : Bool) (l : List FSNode) (e : Entry),
      e ∈ walkOsKids pats mypath ign l →
      shouldIgnore pats e.path = false
  | mypath, ign, [], e, he => by simp [walkOsKids] at he
  | mypath, ign, c :: cs, e, he => by
    rw [walkOsKids] at he
    rcases List.mem_append.mp he with h | h
    · rcases hcond : (nodeIsDir c &&
          (ign || !shouldIgnore pats (mypath ++ [nodeName c]))) with _ | _
      · rw [hcond] at h
        simp at h
      · rw [hcond] at h
        simp only [if_pos rfl] at h
        exact walkOsNode_notIgnored pats mypath c e h
    · exact walkOsKids_notIgnored pats mypath ign cs e h

end

mutual

theorem walkOsNode_shape (pats : List String) :
    ∀ (parent : AbsPath) (c : FSNode) (e : Entry),
      e ∈ walkOsNode pats parent c →
      ∃ rel, rel ≠ [] ∧ e.path = parent ++ rel
  | parent, .file _, e, he => by simp [walkOsNode] at he
  | parent, .dir n ch, e, he => by
    rw [walkOsNode] at he
    rcases List.mem_append.mp he with h | h
    · obtain ⟨rel, hrel⟩ := dirOwnEntries_shape pats (parent ++ [n]) ch e h
      exact ⟨n :: rel, by simp, by rw [hrel]; simp⟩
    · obtain ⟨rel, hne, hrel⟩ :=
        walkOsKids_shape pats (parent ++ [n]) _ ch e h
      exact ⟨n :: rel, by simp, by rw [hrel]; simp⟩

theorem walkOsKids_shape (pats : List String) :
    ∀ (mypath : AbsPath) (ign : Bool) (l : List FSNode) (e : Entry),
      e ∈ walkOsKids pats mypath ign l →
      ∃ rel, rel ≠ [] ∧ e.path = mypath ++ rel
  | mypath, ign, [], e, he => by simp [walkOsKids] at he
  | mypath, ign, c :: cs, e, he => by
    rw [walkOsKids] at he
    rcases List.mem_append.mp he with h | h
    · rcases hcond : (nodeIsDir c &&
          (ign || !shouldIgnore pats (mypath ++ [nodeName c]))) with _ | _
      · rw [hcond] at h
        simp at h
      · rw [hcond] at h
        simp only [if_pos rfl] at h
        exact walkOsNode_shape pats mypath c e h
    · exact walkOsKids_shape pats mypath ign cs e h

end

mutual

theorem limNode_notIgnored (pats : List String) (d : Int) :
    ∀ (level : Nat) (mypath : AbsPath) (c : FSNode) (e : Entry),
      e ∈ limNode pats d level mypath c →
      shouldIgnore pats e.path = false
  | level, mypath, .file _, e, he => by
    rw [limNode] at he
    rcases hcond : (level > 0 && !shouldIgnore pats mypath) with _ | _
    · rw [hcond] at he
      simp at he
    · rw [hcond] at he
      have he' : e = ⟨mypath, false⟩ := by simpa using he
      rw [Bool.and_eq_true, Bool.not_eq_eq_eq_not, Bool.not_true] at hcond
      rw [he']
      exact hcond.2
  | level, mypath, .dir _ ch, e, he => by
    rw [limNode] at he
    rcases List.mem_append.mp he with h | h
    · rcases hcond : (level > 0 && !shouldIgnore pats mypath) with _ | _
      · rw [hcond] at h
        simp at h
      · rw [hcond] at h
        have h' : e = ⟨mypath, true⟩ := by simpa using h
        rw [Bool.and_eq_true, Bool.not_eq_eq_eq_not, Bool.not_true] at hcond
        rw [h']
        exact hcond.2
    · rcases hlt : decide ((level : Int) < d) with _ | _
      · rw [if_neg (by simpa using hlt)] at h
        simp at h
      · rw [if_pos (by simpa using hlt)] at h
        exact limKids_notIgnored pats d (level + 1) mypath ch e h

theorem limKids_notIgnored (pats : List String) (d : Int) :
    ∀ (level : Nat) (parent : AbsPath) (l : List FSNode) (e : Entry),
      e ∈ limKids pats d level parent l →
      shouldIgnore pats e.path = false
  | level, parent, [], e, he => by simp [limKids] at he
  | level, parent, c :: cs, e, he => by
    rw [limKids] at he
    rcases List.mem_append.mp he with h | h
    · rcases hig : shouldIgnore pats (parent ++ [nodeName c]) with _ | _
      · rw [hig] at h
        simp only [Bool.false_eq_true, if_false] at h
        exact limNode_notIgnored pats d level (parent ++ [nodeName c]) c e h
      · rw [hig] at h
        simp at h
    · exact limKids_notIgnored pats d level parent cs e h

end

mutual

theorem limNode_shape (pats : List String) (d : Int) :
    ∀ (level : Nat) (mypath : AbsPath) (c : FSNode) (e : Entry),
      e ∈ limNode pats d level mypath c →
      ∃ rel, e.path = mypath ++ rel
  | level, mypath, .file _, e, he => by
    rw [limNode] at he
    rcases hcond : (level > 0 && !shouldIgnore pats mypath) with _ | _
    · rw [hcond] at he
      simp at he
    · rw [hcond] at he
      have he' : e = ⟨mypath, false⟩ := by simpa using he
      exact ⟨[], by rw [he']; simp⟩
  | level, mypath, .dir _ ch, e, he => by
    rw [limNode] at he
    rcases List.mem_append.mp he with h | h
    · rcases hcond : (level > 0 && !shouldIgnore pats mypath) with _ | _
      · rw [hcond] at h
        simp at h
      · rw [hcond] at h
        have h' : e = ⟨mypath, true⟩ := by simpa using h
        exact ⟨[], by rw [h']; simp⟩
    · rcases hlt : decide ((level : Int) < d) with _ | _
      · rw [if_neg (by simpa using hlt)] at h
        simp at h
      · rw [if_pos (by simpa using hlt)] at h
        obtain ⟨rel, -, hrel⟩ := limKids_shape pats d (level + 1) mypath ch e h
        exact ⟨rel, hrel⟩

theorem limKids_shape (pats : List String) (d : Int) :
    ∀ (level : Nat) (parent : AbsPath) (l : List FSNode) (e : Entry),
      e ∈ limKids pats d level parent l →
      ∃ rel, rel ≠ [] ∧ e.path = parent ++ rel
  | level, parent, [], e, he => by simp [limKids] at he
  | level, parent, c :: cs, e, he => by
    rw [limKids] at he
    rcases List.mem_append.mp he with h | h
    · rcases hig : shouldIgnore pats (parent ++ [nodeName c]) with _ | _
      · rw [hig] at h
        simp only [Bool.false_eq_true, if_false] at h
        obtain ⟨rel, hrel⟩ :=
          limNode_shape pats d level (parent ++ [nodeName c]) c e h
        exact ⟨nodeName c :: rel, by simp, by rw [hrel]; simp⟩
      · rw [hig] at h
        simp at h
    · exact limKids_shape pats d level parent cs e h

end

theorem nonRecWalk_notIgnored (pats : List String) (rootPath : AbsPath)
    (l : List FSNode) (e : Entry) (he : e ∈ nonRecWalk pats rootPath l) :
    shouldIgnore pats e.path = false := by
  unfold nonRecWalk at he
  rw [List.mem_filterMap] at he
  obtain ⟨c, _, hc⟩ := he
  rcases hig : shouldIgnore pats (rootPath ++ [nodeName c]) with _ | _
  · rw [hig] at hc
    simp only [Bool.false_eq_true, if_false, Option.some_inj] at hc
    rw [← hc]
    exact hig
  · rw [hig] at hc
    simp at hc

theorem nonRecWalk_shape (pats : List String) (rootPath : AbsPath)
    (l : List FSNode) (e : Entry) (he : e ∈ nonRecWalk pats rootPath l) :
    ∃ rel, e.path = rootPath ++ rel := by
  unfold nonRecWalk at he
  rw [List.mem_filterMap] at he
  obtain ⟨c, _, hc⟩ := he
  rcases hig : shouldIgnore pats (rootPath ++ [nodeName c]) with _ | _
  · rw [hig] at hc
    simp only [Bool.false_eq_true, if_false, Option.some_inj] at hc
    exact ⟨[nodeName c], by rw [← hc]⟩
  · rw [hig] at hc
    simp at hc

/-- No traversal mode ever yields an ignored entry. -/
theorem walk_valid_paths_notIgnored (b : FileBrowser) (e : Entry)
    (he : e ∈ walk_valid_paths b) :
    shouldIgnore b.ignorePatterns e.path = false := by
  unfold walk_valid_paths at he
  rcases hrec : b.recursive with _ | _
  · rw [hrec] at he
    simp only [Bool.false_eq_true, if_false] at he
    rcases hd : b.depth with _ | d
    · rw [hd] at he
      exact nonRecWalk_notIgnored _ _ _ e he
    · rw [hd] at he
      exact limNode_notIgnored _ d 0 b.rootPath _ e he
  · rw [hrec] at he
    simp only [if_pos rfl] at he
    unfold walkOs at he
    rcases List.mem_append.mp he with h | h
    · exact dirOwnEntries_notIgnored _ _ _ e h
    · exact walkOsKids_notIgnored _ _ _ _ e h

/-- Every yielded entry lies at or below the root. -/
theorem walk_valid_paths_shape (b : FileBrowser) (e : Entry)
    (he : e ∈ walk_valid_paths b) :
    ∃ rel, e.path = b.rootPath ++ rel := by
  unfold walk_valid_paths at he
  rcases hrec : b.recursive with _ | _
  · rw [hrec] at he
    simp only [Bool.false_eq_true, if_false] at he
    rcases hd : b.depth with _ | d
    · rw [hd] at he
      exact nonRecWalk_shape _ _ _ e he
    · rw [hd] at he
      exact limNode_shape _ d 0 b.rootPath _ e he
  · rw [hrec] at he
    simp only [if_pos rfl] at he
    unfold walkOs at he
    rcases List.mem_append.mp he with h | h
    · exact dirOwnEntries_shape _ _ _ e h
    · obtain ⟨rel, _, hrel⟩ := walkOsKids_shape _ _ _ _ e h
      exact ⟨rel, hrel⟩

theorem walk_valid_paths_ne_nil (b : FileBrowser) (hroot : b.rootPath ≠ [])
    (e : Entry) (he : e ∈ walk_valid_paths b) : e.path ≠ [] := by
  obtain ⟨rel, hrel⟩ := walk_valid_paths_shape b e he
  rw [hrel]
  intro h0
  rcases List.append_eq_nil.mp h0 with ⟨h1, _⟩
  exact hroot h1

end PyCmdc

namespace PyCmdc

/-! ## Claim C5: what the engine lists and visits -/

/-- Matching any segment is inherited downward: everything below an ignored
path is ignored. -/
theorem shouldIgnore_mono (pats : List String) (q t : AbsPath)
    (h : shouldIgnore pats q = true) :
    shouldIgnore pats (q ++ t) = true := by
  unfold shouldIgnore at h ⊢
  rw [List.any_eq_true] at h ⊢
  obtain ⟨part, hmem, hm⟩ := h
  exact ⟨part, List.mem_append_left t hmem, hm⟩

mutual

theorem recListedNode_notIgnored (pats : List String) :
    ∀ (parent : AbsPath) (c : FSNode),
      shouldIgnore pats (parent ++ [nodeName c]) = false →
      ∀ p ∈ recListedNode pats parent c, shouldIgnore pats p = false
  | parent, .file _, _, p, hp => by simp [recListedNode] at hp
  | parent, .dir n ch, h, p, hp => by
    rw [recListedNode] at hp
    rcases List.mem_cons.mp hp with rfl | hp
    · exact h
    · have h' : shouldIgnore pats (parent ++ [n]) = false := h
      rw [h'] at hp
      exact recListedKids_notIgnored pats (parent ++ [n]) ch p hp

theorem recListedKids_notIgnored (pats : List String) :
    ∀ (mypath : AbsPath) (l : List FSNode),
      ∀ p ∈ recListedKids pats mypath false l,
        shouldIgnore pats p = false
  | mypath, [], p, hp => by simp [recListedKids] at hp
  | mypath, c :: cs, p, hp => by
    rw [recListedKids] at hp
    rcases List.mem_append.mp hp with h | h
    · rcases hcond : (nodeIsDir c &&
          (false || !shouldIgnore pats (mypath ++ [nodeName c]))) with _ | _
      · rw [hcond] at h
        simp at h
      · rw [hcond] at h
        simp only [if_pos rfl] at h
        rw [Bool.and_eq_true, Bool.false_or, Bool.not_eq_eq_eq_not,
          Bool.not_true] at hcond
        exact recListedNode_notIgnored pats mypath c hcond.2 p h
    · exact recListedKids_notIgnored pats mypath cs p h

end

mutual

theorem limVisitNode_levels (pats : List String) (d : Int) :
    ∀ (level : Nat) (mypath : AbsPath) (c : FSNode),
      (level : Int) ≤ d →
      ∀ pl ∈ limVisitNode pats d level mypath c, (pl.2 : Int) ≤ d
  | level, mypath, .file _, h, pl, hpl => by
    rw [limVisitNode] at hpl
    have : pl = (mypath, level) := by simpa using hpl
    rw [this]
    exact h
  | level, mypath, .dir _ ch, h, pl, hpl => by
    rw [limVisitNode] at hpl
    rcases List.mem_cons.mp hpl with rfl | hpl
    · exact h
    · rcases hlt : decide ((level : Int) < d) with _ | _
      · rw [if_neg (by simpa using hlt)] at hpl
        simp at hpl
      · rw [if_pos (by simpa using hlt)] at hpl
        have hlt' : (level : Int) < d := by simpa using hlt
        exact limVisitKids_levels pats d (level + 1) mypath ch
          (by push_cast; omega) pl hpl

theorem limVisitKids_levels (pats : List String) (d : Int) :
    ∀ (level : Nat) (parent : AbsPath) (l : List FSNode),
      (level : Int) ≤ d →
      ∀ pl ∈ limVisitKids pats d level parent l, (pl.2 : Int) ≤ d
  | level, parent, [], _, pl, hpl => by simp [limVisitKids] at hpl
  | level, parent, c :: cs, h, pl, hpl => by
    rw [limVisitKids] at hpl
    rcases List.mem_append.mp hpl with h' | h'
    · rcases hig : shouldIgnore pats (parent ++ [nodeName c]) with _ | _
      · rw [hig] at h'
        simp only [Bool.false_eq_true, if_false] at h'
        exact limVisitNode_levels pats d level (parent ++ [nodeName c]) c
          h pl h'
      · rw [hig] at h'
        simp at h'
    · exact limVisitKids_levels pats d level parent cs h pl h'

end

mutual

theorem limListNode_spec (pats : List String) (d : Int) :
    ∀ (level : Nat) (mypath : AbsPath) (c : FSNode),
      ∀ pl ∈ limListNode pats d level mypath c,
        (pl.2 : Int) < d ∧
          (pl.1 = mypath ∨ shouldIgnore pats pl.1 = false)
  | level, mypath, .file _, pl, hpl => by simp [limListNode] at hpl
  | level, mypath, .dir _ ch, pl, hpl => by
    rw [limListNode] at hpl
    rcases hlt : decide ((level : Int) < d) with _ | _
    · rw [if_neg (by simpa using hlt)] at hpl
      simp at hpl
    · rw [if_pos (by simpa using hlt)] at hpl
      rcases List.mem_cons.mp hpl with rfl | hpl
      · exact ⟨by simpa using hlt, Or.inl rfl⟩
      · obtain ⟨h1, h2⟩ :=
          limListKids_spec pats d (level + 1) mypath ch pl hpl
        exact ⟨h1, Or.inr h2⟩

theorem limListKids_spec (pats : List String) (d : Int) :
    ∀ (level : Nat) (parent : AbsPath) (l : List FSNode),
      ∀ pl ∈ limListKids pats d level parent l,
        (pl.2 : Int) < d ∧ shouldIgnore pats pl.1 = false
  | level, parent, [], pl, hpl => by simp [limListKids] at hpl
  | level, parent, c :: cs, pl, hpl => by
    rw [limListKids] at hpl
    rcases List.mem_append.mp hpl with h' | h'
    · rcases hig : shouldIgnore pats (parent ++ [nodeName c]) with _ | _
      · rw [hig] at h'
        simp only [Bool.false_eq_true, if_false] at h'
        obtain ⟨h1, h2⟩ :=
          limListNode_spec pats d level (parent ++ [nodeName c]) c pl h'
        refine ⟨h1, ?_⟩
        rcases h2 with h2 | h2
        · rw [h2]
          exact hig
        · exact h2
      · rw [hig] at h'
        simp at h'
    · exact limListKids_spec pats d level parent cs pl h'

end

/-- C5 counterexample: in recursive mode, a traversal root that itself
matches an ignore pattern (here a root named `.git` with pattern `.git`) is
not skipped: `os.walk` still lists its subdirectory `sub` — a directory
strictly below a directory matching an ignore pattern — because the body
`continue`s before pruning `dirs`. -/
theorem c5_ignored_root_walked_counterexample :
    shouldIgnore [".git"] ["/", "repo", ".git"] = true ∧
    recListed [".git"] ["/", "repo", ".git"] [.dir "sub" [.file "f.py"]] =
      [["/", "repo", ".git"], ["/", "repo", ".git", "sub"]] ∧
    walkOs [".git"] ["/", "repo", ".git"] [.dir "sub" [.file "f.py"]]
      = [] := by
  refine ⟨by decide, by decide, by decide⟩

/-- C5 (amended): pruning happens before descent below any *non-ignored*
traversal root — when the root does not match an ignore pattern, recursive
traversal never lists a directory at or below an ignored one; depth-limited
traversal never visits a node at level > n (for n ≥ 0) and only iterdirs
directories at levels < n that are the root or non-ignored.  (A traversal
root that itself matches a pattern is, however, walked and discarded rather
than skipped — see the counterexample.) -/
theorem c5_pruning_before_descent (pats : List String) (root : AbsPath)
    (children : List FSNode) (d : Int)
    (hroot : shouldIgnore pats root = false) (hd : 0 ≤ d) :
    (∀ p ∈ recListed pats root children, ∀ q t : AbsPath, p = q ++ t →
      shouldIgnore pats q = false) ∧
    (∀ pl ∈ limVisited pats d root children, (pl.2 : Int) ≤ d) ∧
    (∀ pl ∈ limListed pats d root children,
      (pl.2 : Int) < d ∧ (pl.1 = root ∨ shouldIgnore pats pl.1 = false)) := by
  refine ⟨?_, ?_, ?_⟩
  · intro p hp q t hqt
    have hnp : shouldIgnore pats p = false := by
      unfold recListed at hp
      rcases List.mem_cons.mp hp with rfl | hp
      · exact hroot
      · rw [hroot] at hp
        exact recListedKids_notIgnored pats root children p hp
    rcases hq : shouldIgnore pats q with _ | _
    · rfl
    · exfalso
      have := shouldIgnore_mono pats q t hq
      rw [← hqt] at this
      rw [this] at hnp
      exact absurd hnp (by simp)
  · intro pl hpl
    exact limVisitNode_levels pats d 0 root (.dir "" children)
      (by exact_mod_cast hd) pl hpl
  · intro pl hpl
    exact limListNode_spec pats d 0 root (.dir "" children) pl hpl

/-- Witness for C5 (amended) over a non-ignored root holding an ignored
`.git` subtree. -/
theorem c5_pruning_before_descent_witness :
    (∀ p ∈ recListed [".git"] ["/", "r"]
        [FSNode.dir ".git" [FSNode.file "x"], FSNode.dir "ok" [FSNode.file "y"]],
      ∀ q t : AbsPath, p = q ++ t → shouldIgnore [".git"] q = false) ∧
    (∀ pl ∈ limVisited [".git"] 1 ["/", "r"]
        [FSNode.dir ".git" [FSNode.file "x"], FSNode.dir "ok" [FSNode.file "y"]],
      (pl.2 : Int) ≤ 1) ∧
    (∀ pl ∈ limListed [".git"] 1 ["/", "r"]
        [FSNode.dir ".git" [FSNode.file "x"], FSNode.dir "ok" [FSNode.file "y"]],
      (pl.2 : Int) < 1 ∧
        (pl.1 = ["/", "r"] ∨ shouldIgnore [".git"] pl.1 = false)) :=
  c5_pruning_before_descent [".git"] ["/", "r"]
    [FSNode.dir ".git" [FSNode.file "x"], FSNode.dir "ok" [FSNode.file "y"]]
    1 (by decide) (by decide)

end PyCmdc

namespace PyCmdc

/-! ## Tree soundness: everything shown by `build_directory_tree` comes from
a yielded entry -/

theorem strEqOfData {a b : String} (h : a.data = b.data) : a = b := by
  cases a
  cases b
  exact congrArg String.mk h

theorem dropLast_append_getLastD :
    ∀ (p : AbsPath), p ≠ [] → p.dropLast ++ [p.getLastD ""] = p
  | [x], _ => by simp
  | x :: y :: t, _ => by
    have ih := dropLast_append_getLastD (y :: t) (by simp)
    have hdflt : (y :: t).getLastD x = (y :: t).getLastD "" := by
      rw [List.getLastD_eq_getLast?, List.getLastD_eq_getLast?]
      rcases hq : (y :: t).getLast? with _ | v
      · rw [List.getLast?_eq_none_iff] at hq
        exact absurd hq (by simp)
      · rfl
    rw [List.dropLast_cons₂, List.getLastD_cons, hdflt, List.cons_append,
      ih]

theorem styleDirectory_inj (x y : String)
    (h : styleDirectory x = styleDirectory y) : x = y := by
  unfold styleDirectory at h
  have hd := congrArg String.data h
  have hd' : "[bold magenta]".data ++ (x.data ++ "[/bold magenta]".data) =
      "[bold magenta]".data ++ (y.data ++ "[/bold magenta]".data) := hd
  have h1 := List.append_cancel_left hd'
  have h2 := List.append_cancel_right h1
  exact strEqOfData h2

theorem styleFile_inj (x y : String)
    (h : styleFile x = styleFile y) : x = y := by
  unfold styleFile at h
  have hd := congrArg String.data h
  have hd' : "[green]".data ++ (x.data ++ "[/green]".data) =
      "[green]".data ++ (y.data ++ "[/green]".data) := hd
  have h1 := List.append_cancel_left hd'
  have h2 := List.append_cancel_right h1
  exact strEqOfData h2

theorem styleDirectory_ne_styleFile (x y : String) :
    styleDirectory x ≠ styleFile y := by
  intro h
  have h1 : (styleDirectory x).data[1]? = some 'b' := by
    show ("[bold magenta]".data ++
      (x.data ++ "[/bold magenta]".data))[1]? = some 'b'
    rw [List.getElem?_append, if_pos (by decide)]
    decide
  have h2 : (styleFile y).data[1]? = some 'g' := by
    show ("[green]".data ++ (y.data ++ "[/green]".data))[1]? = some 'g'
    rw [List.getElem?_append, if_pos (by decide)]
    decide
  rw [h, h2] at h1
  exact absurd h1 (by simp)

theorem mem_pathsByParent (root : AbsPath) (valid : List Entry)
    (d : AbsPath) (e : Entry) (he : e ∈ pathsByParent root valid d) :
    e ∈ valid ∧ e.path.dropLast = d := by
  unfold pathsByParent at he
  rw [List.mem_filter] at he
  obtain ⟨he, hdl⟩ := he
  rw [List.mem_filter] at he
  exact ⟨he.1, by simpa using hdl⟩

theorem entry_path_eq (e : Entry) (d : AbsPath)
    (hdl : e.path.dropLast = d) (hnp : e.path ≠ []) :
    e.path = d ++ [entryName e] := by
  have := dropLast_append_getLastD e.path hnp
  rw [hdl] at this
  exact this.symm

theorem addToTree_sound (root : AbsPath) (valid : List Entry)
    (ff : String → Bool) (sd sf : String → String)
    (hinjd : ∀ x y, sd x = sd y → x = y)
    (hinjf : ∀ x y, sf x = sf y → x = y)
    (hdisj : ∀ x y, sd x ≠ sf y)
    (hne : ∀ e ∈ valid, e.path ≠ []) :
    ∀ (fuel : Nat) (d : AbsPath) (rel : List String) (isD : Bool)
      (lbl : String),
      hasEntry sd sf
        (RTree.node lbl (addToTree root valid ff sd sf fuel d)) rel isD
        = true →
      ∃ e ∈ valid, e.path = d ++ rel ∧ e.isDir = isD := by
  intro fuel
  induction fuel with
  | zero =>
    intro d rel isD lbl h
    rcases rel with _ | ⟨n, rest⟩
    · simp [hasEntry] at h
    · rcases rest with _ | ⟨m, rest'⟩ <;>
        simp [addToTree, hasEntry, RTree.children] at h
  | succ fuel ih =>
    intro d rel isD lbl h
    rcases rel with _ | ⟨n, rest⟩
    · simp [hasEntry] at h
    rcases rest with _ | ⟨m, rest'⟩
    · -- rel = [n]
      rw [hasEntry] at h
      rw [List.any_eq_true] at h
      obtain ⟨c, hc, hlabel⟩ := h
      show ∃ e ∈ valid, e.path = d ++ [n] ∧ e.isDir = isD
      rw [RTree.children, addToTree, List.mem_flatten] at hc
      obtain ⟨s, hs, hcs⟩ := hc
      rw [List.mem_map] at hs
      obtain ⟨e, he, rfl⟩ := hs
      rw [mem_stableSort] at he
      obtain ⟨hev, hdl⟩ := mem_pathsByParent root valid d e he
      have hnp := hne e hev
      rcases heid : e.isDir with _ | _
      · rw [heid] at hcs
        simp only [Bool.false_eq_true, if_false] at hcs
        rcases hff : ff (entryName e) with _ | _
        · rw [hff] at hcs
          simp at hcs
        · rw [hff] at hcs
          have hcs' : c = RTree.node (sf (entryName e)) [] := by
            simpa using hcs
          rw [hcs'] at hlabel
          rw [RTree.label, beq_iff_eq] at hlabel
          rcases isD with _ | _
          · have hn : entryName e = n :=
              hinjf (entryName e) n (by simpa using hlabel)
            refine ⟨e, hev, ?_, heid⟩
            rw [← hn]
            exact entry_path_eq e d hdl hnp
          · exact absurd hlabel.symm (hdisj n (entryName e))
      · rw [heid] at hcs
        simp only [if_pos rfl] at hcs
        rcases hcond : (!(pathsByParent root valid e.path == []) ||
            valid.any (fun e' => e'.path == e.path)) with _ | _
        · rw [hcond] at hcs
          simp at hcs
        · rw [hcond] at hcs
          have hcs' : c = RTree.node (sd (entryName e))
              (addToTree root valid ff sd sf fuel e.path) := by
            simpa using hcs
          rw [hcs'] at hlabel
          rw [RTree.label, beq_iff_eq] at hlabel
          rcases isD with _ | _
          · exact absurd hlabel (hdisj (entryName e) n)
          · have hn : entryName e = n := hinjd (entryName e) n hlabel
            refine ⟨e, hev, ?_, heid⟩
            rw [← hn]
            exact entry_path_eq e d hdl hnp
    · -- rel = n :: m :: rest'
      have h2 : (addToTree root valid ff sd sf (fuel + 1) d).any
          (fun c => c.label == sd n && hasEntry sd sf c (m :: rest') isD)
          = true := h
      rw [List.any_eq_true] at h2
      obtain ⟨c, hc, hstep⟩ := h2
      rw [Bool.and_eq_true] at hstep
      obtain ⟨hlabel, hrec⟩ := hstep
      rw [addToTree, List.mem_flatten] at hc
      obtain ⟨s, hs, hcs⟩ := hc
      rw [List.mem_map] at hs
      obtain ⟨e, he, rfl⟩ := hs
      rw [mem_stableSort] at he
      obtain ⟨hev, hdl⟩ := mem_pathsByParent root valid d e he
      have hnp := hne e hev
      rcases heid : e.isDir with _ | _
      · rw [heid] at hcs
        simp only [Bool.false_eq_true, if_false] at hcs
        rcases hff : ff (entryName e) with _ | _
        · rw [hff] at hcs
          simp at hcs
        · rw [hff] at hcs
          have hcs' : c = RTree.node (sf (entryName e)) [] := by
            simpa using hcs
          rw [hcs'] at hlabel
          rw [RTree.label, beq_iff_eq] at hlabel
          exact absurd hlabel.symm (hdisj n (entryName e))
      · rw [heid] at hcs
        simp only [if_pos rfl] at hcs
        rcases hcond : (!(pathsByParent root valid e.path == []) ||
            valid.any (fun e' => e'.path == e.path)) with _ | _
        · rw [hcond] at hcs
          simp at hcs
        · rw [hcond] at hcs
          have hcs' : c = RTree.node (sd (entryName e))
              (addToTree root valid ff sd sf fuel e.path) := by
            simpa using hcs
          rw [hcs'] at hlabel hrec
          rw [RTree.label, beq_iff_eq] at hlabel
          have hn : entryName e = n := hinjd (entryName e) n hlabel
          obtain ⟨e', he', hpath, hdir⟩ :=
            ih e.path (m :: rest') isD (sd (entryName e)) hrec
          refine ⟨e', he', ?_, hdir⟩
          rw [hpath, entry_path_eq e d hdl hnp, hn, List.append_assoc]
          rfl

/-- Everything navigable in `build_tree`'s output corresponds to an entry
yielded by `walk_valid_paths`, with a matching kind. -/
theorem build_tree_sound (b : FileBrowser) (hroot : b.rootPath ≠ [])
    (rel : List String) (isD : Bool)
    (h : hasEntry styleDirectory styleFile (build_tree b) rel isD = true) :
    ∃ e ∈ walk_valid_paths b, e.path = b.rootPath ++ rel ∧
      e.isDir = isD := by
  unfold build_tree build_directory_tree at h
  exact addToTree_sound b.rootPath (walk_valid_paths b)
    (fileMatchesFilter b.filters) styleDirectory styleFile
    styleDirectory_inj styleFile_inj styleDirectory_ne_styleFile
    (fun e he => walk_valid_paths_ne_nil b hroot e he)
    (treeFuel (walk_valid_paths b)) b.rootPath rel isD
    (styleDirectory (rootLabel b.rootPath)) h

end PyCmdc

namespace PyCmdc

/-! ## Claim C6 -/

/-- C6 counterexample: in recursive mode with filter `.py`, the directory
`sub` (whose only file `b.txt` is filtered out, so it has zero surviving
descendant files) still appears in the DisplayTree as a childless directory
node — the guard `path in paths_by_parent or path in valid_paths` of
`add_to_tree` is satisfied by every yielded directory. -/
theorem c6_empty_dir_shown_counterexample :
    emptyDirBrowser.recursive = true ∧
    get_files emptyDirBrowser = [⟨["/", "r", "a.py"], false⟩] ∧
    hasEntry styleDirectory styleFile (build_tree emptyDirBrowser)
      ["sub"] true = true ∧
    (build_tree emptyDirBrowser).children.any
      (fun c => c.label == styleDirectory "sub" && c.children.isEmpty)
      = true :=
  ⟨rfl, by decide, by decide, by decide⟩

/-- C6 (amended): a directory node appears in the DisplayTree only if it is
itself non-ignored and was explicitly yielded by the traversal — by any
traversal mode, not only the non-recursive one; recursive and depth-limited
traversal also yield (and the tree then also shows) directories with zero
surviving descendant files. -/
theorem c6_dir_in_tree_only_if_yielded (b : FileBrowser)
    (hroot : b.rootPath ≠ []) (rel : List String)
    (h : hasEntry styleDirectory styleFile (build_tree b) rel true
      = true) :
    Entry.mk (b.rootPath ++ rel) true ∈ walk_valid_paths b ∧
    shouldIgnore b.ignorePatterns (b.rootPath ++ rel) = false := by
  obtain ⟨e, he, hpath, hdir⟩ := build_tree_sound b hroot rel true h
  have heq : e = ⟨b.rootPath ++ rel, true⟩ := by
    cases e
    simp_all
  rw [heq] at he
  refine ⟨he, ?_⟩
  have := walk_valid_paths_notIgnored b _ he
  simpa using this

/-- Witness for C6 (amended): the childless `sub` node of
`emptyDirBrowser`'s tree does come from a yielded, non-ignored directory
entry. -/
theorem c6_dir_in_tree_only_if_yielded_witness :
    Entry.mk (["/", "r"] ++ ["sub"]) true ∈
      walk_valid_paths emptyDirBrowser ∧
    shouldIgnore emptyDirBrowser.ignorePatterns (["/", "r"] ++ ["sub"])
      = false :=
  c6_dir_in_tree_only_if_yielded emptyDirBrowser (by decide) ["sub"]
    (by decide)

/-! ## Claim C1 -/

/-- C1: for every root, every traversal mode and every ignore-pattern set, a
file whose absolutized path has any segment (including the name of any
ancestor directory) matching an ignore pattern appears neither among the
Candidates returned by `get_files` nor anywhere in the DisplayTree built
over the traversal. -/
theorem c1_ignored_never_surfaced (b : FileBrowser) (rel : List String)
    (hroot : b.rootPath ≠ [])
    (hig : shouldIgnore b.ignorePatterns (b.rootPath ++ rel) = true) :
    (∀ e ∈ get_files b, e.path ≠ b.rootPath ++ rel) ∧
    (∀ isD : Bool,
      hasEntry styleDirectory styleFile (build_tree b) rel isD
        = false) := by
  constructor
  · intro e he hpa
    unfold get_files at he
    rw [mem_stableSort, List.mem_filter] at he
    have hni := walk_valid_paths_notIgnored b e he.1
    rw [hpa, hig] at hni
    exact absurd hni (by simp)
  · intro isD
    rcases hq : hasEntry styleDirectory styleFile (build_tree b) rel isD
      with _ | _
    · rfl
    · exfalso
      obtain ⟨e, he, hpath, _⟩ := build_tree_sound b hroot rel isD hq
      have hni := walk_valid_paths_notIgnored b e he
      rw [hpath, hig] at hni
      exact absurd hni (by simp)

/-- Witness for C1: with `node_modules` ignored, the file
`node_modules/pkg/index.js` is neither a Candidate nor shown in the tree. -/
theorem c1_ignored_never_surfaced_witness :
    (∀ e ∈ get_files nodeModulesBrowser,
      e.path ≠ ["/", "r"] ++ ["node_modules", "pkg", "index.js"]) ∧
    (∀ isD : Bool, hasEntry styleDirectory styleFile
      (build_tree nodeModulesBrowser)
      ["node_modules", "pkg", "index.js"] isD = false) :=
  c1_ignored_never_surfaced nodeModulesBrowser
    ["node_modules", "pkg", "index.js"] (by decide) (by decide)

end PyCmdc

namespace PyCmdc

/-! ## Claim C4: exact characterisation of depth-limited file discovery -/

theorem fileAtNode_name (c : FSNode) (n : String) (rest : List String)
    (h : fileAtNode c (n :: rest) = true) : nodeName c = n := by
  rcases c with fn | ⟨dn, ch⟩
  · rcases rest with _ | ⟨m, t⟩
    · rw [fileAtNode, beq_iff_eq] at h
      exact h
    · simp [fileAtNode] at h
  · rcases rest with _ | ⟨m, t⟩
    · simp [fileAtNode] at h
    · rw [fileAtNode, Bool.and_eq_true, beq_iff_eq] at h
      exact h.1

theorem fileAtNode_file_iff (fn n : String) (rest : List String) :
    fileAtNode (.file fn) (n :: rest) = true ↔ (fn = n ∧ rest = []) := by
  rcases rest with _ | ⟨m, t⟩
  · rw [fileAtNode, beq_iff_eq]
    simp
  · simp [fileAtNode]

theorem fileAtNode_dir_iff (dn n : String) (ch : List FSNode)
    (rest : List String) :
    fileAtNode (.dir dn ch) (n :: rest) = true ↔
      (dn = n ∧ rest ≠ [] ∧ fileAtKids ch rest = true) := by
  rcases rest with _ | ⟨m, t⟩
  · simp [fileAtNode]
  · rw [fileAtNode, Bool.and_eq_true, beq_iff_eq]
    simp

theorem limKids_file_mem (pats : List String) (d : Int) :
    ∀ (rel : List String) (level : Nat) (parent : AbsPath)
      (l : List FSNode), 1 ≤ level → (level : Int) ≤ d →
      (Entry.mk (parent ++ rel) false ∈ limKids pats d level parent l ↔
        (rel ≠ [] ∧ fileAtKids l rel = true ∧
          shouldIgnore pats (parent ++ rel) = false ∧
          ((level : Int) + rel.length - 1 ≤ d)))
  | [], level, parent, l, hlev, hld => by
    constructor
    · intro hmem
      exfalso
      obtain ⟨rel', hne, hpath⟩ := limKids_shape pats d level parent l _ hmem
      have hpp : parent ++ ([] : List String) = parent ++ rel' := hpath
      exact hne (List.append_cancel_left hpp).symm
    · rintro ⟨hne, -⟩
      exact absurd rfl hne
  | n :: rest, level, parent, l, hlev, hld => by
    induction l with
    | nil =>
      rw [limKids, fileAtKids]
      simp
    | cons c cs ihl =>
      rw [limKids, List.mem_append]
      have hkids : fileAtKids (c :: cs) (n :: rest) =
          (fileAtNode c (n :: rest) || fileAtKids cs (n :: rest)) := rfl
      rw [hkids]
      have hB : Entry.mk (parent ++ (n :: rest)) false ∈
            limKids pats d level parent cs ↔
          (fileAtKids cs (n :: rest) = true ∧
            shouldIgnore pats (parent ++ (n :: rest)) = false ∧
            ((level : Int) + (n :: rest).length - 1 ≤ d)) := by
        rw [ihl]
        simp
      have hA : Entry.mk (parent ++ (n :: rest)) false ∈
            (if shouldIgnore pats (parent ++ [nodeName c]) then []
             else limNode pats d level (parent ++ [nodeName c]) c) ↔
          (fileAtNode c (n :: rest) = true ∧
            shouldIgnore pats (parent ++ (n :: rest)) = false ∧
            ((level : Int) + (n :: rest).length - 1 ≤ d)) := by
        rcases hig : shouldIgnore pats (parent ++ [nodeName c]) with _ | _
        · rw [if_neg (by simp [hig])]
          rcases c with fn | ⟨dn, ch⟩
          · -- file child
            rw [limNode]
            have hcond : (decide (level > 0) &&
                !shouldIgnore pats (parent ++ [nodeName (FSNode.file fn)]))
                = true := by
              rw [Bool.and_eq_true]
              exact ⟨by simpa using hlev, by simpa using hig⟩
            rw [if_pos hcond]
            rw [List.mem_singleton, Entry.mk.injEq]
            constructor
            · rintro ⟨hpp, -⟩
              have hpp2 : parent ++ (n :: rest) = parent ++ [fn] := by
                simpa [nodeName] using hpp
              have hrel : n :: rest = [fn] := List.append_cancel_left hpp2
              have hn : n = fn := by injection hrel with h1 _
              have hrest : rest = [] := by injection hrel with _ h2
              subst hn
              subst hrest
              refine ⟨(fileAtNode_file_iff n n []).mpr ⟨rfl, rfl⟩, ?_, ?_⟩
              · simpa [nodeName] using hig
              · simp only [List.length_cons, List.length_nil]
                push_cast
                omega
            · rintro ⟨hfa, hni, hdep⟩
              obtain ⟨hfn, hrest⟩ := (fileAtNode_file_iff fn n rest).mp hfa
              subst hfn
              subst hrest
              exact ⟨by simp [nodeName], rfl⟩
          · -- directory child
            have howncond : (decide (level > 0) &&
                !shouldIgnore pats (parent ++ [nodeName (FSNode.dir dn ch)]))
                = true := by
              rw [Bool.and_eq_true]
              exact ⟨by simpa using hlev, by simpa using hig⟩
            rw [limNode, List.mem_append, if_pos howncond]
            have hownfalse : (Entry.mk (parent ++ (n :: rest)) false ∈
                ([⟨parent ++ [nodeName (FSNode.dir dn ch)], true⟩] :
                  List Entry)) = False := by
              simp [Entry.mk.injEq]
            rw [hownfalse, false_or]
            rcases hlt : decide ((level : Int) < d) with _ | _
            · have hlt2 : ¬((level : Int) < d) := by simpa using hlt
              rw [if_neg hlt2]
              constructor
              · intro hmem
                simp at hmem
              · rintro ⟨hfa, -, hdep⟩
                exfalso
                obtain ⟨-, hrne, -⟩ := (fileAtNode_dir_iff dn n ch rest).mp hfa
                have hlen : 1 ≤ rest.length := by
                  rcases rest with _ | _
                  · exact absurd rfl hrne
                  · simp
                simp only [List.length_cons] at hdep
                push_cast at hdep
                omega
            · have hlt2 : (level : Int) < d := by simpa using hlt
              rw [if_pos hlt2]
              by_cases hdn : dn = n
              · subst hdn
                have hrw : parent ++ (dn :: rest) =
                    (parent ++ [dn]) ++ rest := List.append_cons parent dn rest
                have hrec := limKids_file_mem pats d rest (level + 1)
                  (parent ++ [dn]) ch (by omega) (by push_cast; omega)
                constructor
                · intro hmem
                  have hmem2 : Entry.mk ((parent ++ [dn]) ++ rest) false ∈
                      limKids pats d (level + 1) (parent ++ [dn]) ch := by
                    rw [← hrw]
                    exact hmem
                  obtain ⟨hrne, hfk, hni, hdep⟩ := hrec.mp hmem2
                  refine ⟨(fileAtNode_dir_iff dn dn ch rest).mpr
                    ⟨rfl, hrne, hfk⟩, ?_, ?_⟩
                  · rw [hrw]
                    exact hni
                  · simp only [List.length_cons]
                    push_cast
                    push_cast at hdep
                    omega
                · rintro ⟨hfa, hni, hdep⟩
                  obtain ⟨-, hrne, hfk⟩ :=
                    (fileAtNode_dir_iff dn dn ch rest).mp hfa
                  have hmem2 : Entry.mk ((parent ++ [dn]) ++ rest) false ∈
                      limKids pats d (level + 1) (parent ++ [dn]) ch := by
                    rw [hrec]
                    refine ⟨hrne, hfk, ?_, ?_⟩
                    · rw [← hrw]
                      exact hni
                    · simp only [List.length_cons] at hdep
                      push_cast at hdep ⊢
                      omega
                  rw [← hrw] at hmem2
                  exact hmem2
              · constructor
                · intro hmem
                  exfalso
                  obtain ⟨rel', hrne, hpath⟩ := limKids_shape pats d
                    (level + 1) (parent ++ [nodeName (FSNode.dir dn ch)])
                    ch _ hmem
                  have hpp : parent ++ (n :: rest) =
                      (parent ++ [dn]) ++ rel' := hpath
                  rw [← List.append_cons] at hpp
                  have h2 := List.append_cancel_left hpp
                  injection h2 with h1 _
                  exact hdn h1.symm
                · rintro ⟨hfa, -, -⟩
                  exfalso
                  obtain ⟨h1, -, -⟩ := (fileAtNode_dir_iff dn n ch rest).mp hfa
                  exact hdn h1
        · rw [if_pos (by simp [hig])]
          constructor
          · intro hmem
            simp at hmem
          · rintro ⟨hfa, hni, -⟩
            exfalso
            have hname := fileAtNode_name c n rest hfa
            rw [hname] at hig
            have hmono := shouldIgnore_mono pats (parent ++ [n]) rest hig
            rw [← List.append_cons] at hmono
            rw [hmono] at hni
            exact absurd hni (by simp)
      rw [hA, hB]
      rw [Bool.or_eq_true]
      constructor
      · rintro (⟨h1, h2, h3⟩ | ⟨h1, h2, h3⟩)
        · exact ⟨by simp, Or.inl h1, h2, h3⟩
        · exact ⟨by simp, Or.inr h1, h2, h3⟩
      · rintro ⟨-, h1 | h1, h2, h3⟩
        · exact Or.inl ⟨h1, h2, h3⟩
        · exact Or.inr ⟨h1, h2, h3⟩

end PyCmdc

namespace PyCmdc

/-- C4: under depth-limited traversal (`recursive=false`, `depth=n`, n ≥ 1),
`get_files` returns exactly the non-ignored, filter-matching files at depth
at most `n`, where the root is depth 0 and its immediate children are
depth 1. -/
theorem c4_depth_limited_files (b : FileBrowser) (n : Int)
    (rel : List String) (hrec : b.recursive = false)
    (hdep : b.depth = some n) (hn : 1 ≤ n) :
    (Entry.mk (b.rootPath ++ rel) false ∈ get_files b ↔
      (rel ≠ [] ∧ fileAtKids b.rootChildren rel = true ∧
        shouldIgnore b.ignorePatterns (b.rootPath ++ rel) = false ∧
        fileMatchesFilter b.filters
          (entryName (Entry.mk (b.rootPath ++ rel) false)) = true ∧
        (rel.length : Int) ≤ n)) := by
  unfold get_files
  rw [mem_stableSort, List.mem_filter]
  have hwalk : walk_valid_paths b =
      limKids b.ignorePatterns n 1 b.rootPath b.rootChildren := by
    unfold walk_valid_paths
    rw [hrec, hdep]
    simp only [Bool.false_eq_true, if_false]
    unfold limitedWalk limNode
    have h0n : ((0 : Nat) : Int) < n := by push_cast; omega
    rw [if_neg (by simp), if_pos h0n]
    simp
  rw [hwalk]
  have hm := limKids_file_mem b.ignorePatterns n rel 1 b.rootPath
    b.rootChildren (by omega) (by omega)
  rw [hm]
  constructor
  · rintro ⟨⟨h1, h2, h3, h4⟩, h5⟩
    refine ⟨h1, h2, h3, ?_, ?_⟩
    · simpa using h5
    · push_cast at h4 ⊢
      omega
  · rintro ⟨h1, h2, h3, h4, h5⟩
    refine ⟨⟨h1, h2, h3, ?_⟩, ?_⟩
    · push_cast
      omega
    · simpa using h4

/-- Witness for C4 at the claim's concrete example: `a.py` at depth 1 and
`sub/c.py` at depth 2; depth 1 yields only `a.py`, depth 2 both. -/
theorem c4_depth_limited_files_witness :
    (Entry.mk (["/", "r"] ++ ["a.py"]) false ∈ get_files (depthBrowser 1)) ∧
    ¬(Entry.mk (["/", "r"] ++ ["sub", "c.py"]) false ∈
      get_files (depthBrowser 1)) ∧
    (Entry.mk (["/", "r"] ++ ["sub", "c.py"]) false ∈
      get_files (depthBrowser 2)) :=
  ⟨(c4_depth_limited_files (depthBrowser 1) 1 ["a.py"] rfl rfl
      (by decide)).mpr (by decide),
   fun h => absurd ((c4_depth_limited_files (depthBrowser 1) 1
      ["sub", "c.py"] rfl rfl (by decide)).mp h) (by decide),
   (c4_depth_limited_files (depthBrowser 2) 2 ["sub", "c.py"] rfl rfl
      (by decide)).mpr (by decide)⟩

end PyCmdc
